import Mathlib

/-!
Verification of the VQM netlist construction core (`vqm_common.c`).

The C code is embedded shallowly:
* C strings (net/port names) are byte lists (`List Nat`); `strcmp` is the
  sign of C's `strcmp`, returned as an `Ordering`.
* C `int` values are `Int`; array positions that are provably nonnegative
  are `Nat` where convenient.
* The growable pointer arrays (`t_array_ref`) are Lean lists; a NULL
  `t_array_ref *` is `none`, an allocated (possibly empty) one carries its
  element list.
* `assert` failures (fatal contract violations, which abort the process)
  are modelled by functions returning `Option`: `none` means some
  assertion failed before the operation completed.
* C loops are embedded as structurally recursive functions over an explicit
  fuel parameter; every call site supplies fuel that strictly exceeds the
  number of iterations the C loop performs, so the fuel-exhaustion branch is
  unreachable (the relevant lemmas carry the corresponding bound).
-/

/-- Pin kind, from `t_pin_def_type` (declared in the `vqm_dll.h` header,
which is not part of this snapshot). Modelled from the spec: kind is one of
Input, Output, InternalWire. No claim depends on the particular kind. -/
inductive PinType where
  | pinInput
  | pinOutput
  | pinWire
deriving DecidableEq, Repr, Inhabited

/-- `t_pin_def`: a declared net (wire or IO port). `name` is the C string as
a byte list; `left`/`right` are the declared bounds; `indexed` is the
`t_boolean` flag. -/
structure PinDef where
  name : List Nat
  left : Int
  right : Int
  type : PinType
  indexed : Bool
deriving DecidableEq, Repr, Inhabited

/-- `t_identifier_pass` (see `allocate_identifier`): a textual identifier,
optionally bit-indexed. -/
structure IdentPass where
  name : List Nat
  indexed : Bool
  index : Int
deriving DecidableEq, Repr, Inhabited

/-- `t_assign`: one assignment record, exactly the fields set by
`add_assignment`. -/
structure Assign where
  source : Option PinDef
  source_index : Int
  target : PinDef
  target_index : Int
  is_tristated : Bool
  tri_control : Option PinDef
  tri_control_index : Int
  value : Int
  inversion : Bool
deriving DecidableEq, Repr

/-- `t_node_port_association`: binding of a named instance port (bit) to a
net (bit). -/
structure PortAssociation where
  port_name : List Nat
  port_index : Int
  associated_net : PinDef
  wire_index : Int
deriving DecidableEq, Repr

/-- `t_node_parameter`: a parameter value is either an integer or a string
(mutually exclusive, per the `type` tag in C). -/
inductive NodeParamValue where
  | intVal (v : Int)
  | strVal (s : List Nat)
deriving DecidableEq, Repr

/-- `t_node_parameter`. -/
structure NodeParameter where
  name : List Nat
  value : NodeParamValue
deriving DecidableEq, Repr

/-- `t_node`: a node (instance) with its parameters and port associations. -/
structure Node where
  type : List Nat
  name : List Nat
  array_of_params : List NodeParameter
  array_of_ports : List PortAssociation
deriving DecidableEq, Repr

/-- `t_module`: a finished module. (Named `VqmModule` because `Module` is
taken by Mathlib.) -/
structure VqmModule where
  name : List Nat
  array_of_pins : List PinDef
  array_of_assignments : List Assign
  array_of_nodes : List Node
deriving DecidableEq, Repr

/-- Sign of C `strcmp` on NUL-terminated byte strings: lexicographic byte
comparison in which a shorter string that is a prefix of the other compares
smaller (its NUL byte is below any string byte). The C code only ever tests
the sign of `strcmp`, so the embedding returns an `Ordering`. -/
def strcmp : List Nat → List Nat → Ordering
  | [], [] => .eq
  | [], _ :: _ => .lt
  | _ :: _, [] => .gt
  | a :: as, b :: bs => if a < b then .lt else if b < a then .gt else strcmp as bs

/-- Array indexing `net_list->pointer[i]` on the pin array. All reachable
accesses are in bounds (established by the lemmas below); out-of-range
access returns the default pin. -/
def pinAt (l : List PinDef) (i : Int) : PinDef := l.getD i.toNat default

/-- `insert_element_at_index`: the C function appends the element and then
shifts `array[insert_index ...]` up by one slot, which on the element
sequence is exactly insertion at `insert_index` (the C code asserts
`0 <= insert_index <= element_count`, which holds at every call site). -/
def insert_element_at_index (element : PinDef) (l : List PinDef) (i : Nat) : List PinDef :=
  l.insertIdx i element

/-- The `while (left <= right)` binary-search loop of
`find_position_for_net_in_array`. `lastIndex` is the value of the C variable
`index` from the previous iteration (initialized to 0 before the loop); it is
returned when the loop exits without an exact match. `fuel` strictly bounds
the number of iterations; the loop range shrinks every iteration, so
`net_list->array_size + 1` is always enough. -/
def fpLoop (name : List Nat) (l : List PinDef) : Nat → Int → Int → Int → Int
  | 0, _, _, lastIndex => lastIndex
  | fuel + 1, left, right, lastIndex =>
    if left ≤ right then
      let index := (left + right) / 2
      match strcmp name (pinAt l index).name with
      | .gt => fpLoop name l fuel (index + 1) right index
      | .lt => fpLoop name l fuel left (index - 1) index
      | .eq => index
    else lastIndex

/-- `find_position_for_net_in_array`: binary search for `name` in the sorted
pin array, returning the index of an exact match or the insertion slot. -/
def find_position_for_net_in_array (name : List Nat) (net_list : List PinDef) : Int :=
  if (net_list.length : Int) - 1 < 0 then 0
  else if strcmp name (pinAt net_list ((net_list.length : Int) - 1)).name = .gt then
    (net_list.length : Int)
  else if strcmp name (pinAt net_list 0).name = .lt then 0
  else
    let position := fpLoop name net_list (net_list.length + 1) 0 ((net_list.length : Int) - 1) 0
    if position < (net_list.length : Int) then
      if strcmp (pinAt net_list position).name name = .lt then position + 1 else position
    else position

/-- `add_pin`: create a pin, look up its slot in the sorted pin list; on an
exact name match discard the new pin, flag the duplicate warning and return
the already-stored pin; otherwise insert the new pin at the computed slot.
Result: (returned pin, duplicate-warning flag, new pin list). -/
def add_pin (name : List Nat) (left right : Int) (type : PinType) (pin_list : List PinDef) :
    PinDef × Bool × List PinDef :=
  let pin : PinDef := ⟨name, left, right, type, left != right⟩
  let index := find_position_for_net_in_array name pin_list
  if 0 ≤ index ∧ index < (pin_list.length : Int) then
    let test_pin := pinAt pin_list index
    if strcmp test_pin.name name = .eq then (test_pin, true, pin_list)
    else (pin, false, insert_element_at_index pin pin_list index.toNat)
  else (pin, false, insert_element_at_index pin pin_list index.toNat)

/-- `locate_net_by_name`: binary search, returning the pin only on an exact
name match. -/
def locate_net_by_name (name : List Nat) (pin_list : List PinDef) : Option PinDef :=
  let index := find_position_for_net_in_array name pin_list
  if index < (pin_list.length : Int) then
    let result := pinAt pin_list index
    if strcmp result.name name = .eq then some result else none
  else none

/-- One net declaration: the arguments of one `add_pin` call. -/
structure PinDecl where
  name : List Nat
  left : Int
  right : Int
  type : PinType
deriving DecidableEq, Repr

/-- Run a sequence of `add_pin` calls against an initially empty pin list. -/
def runPins (ops : List PinDecl) : List PinDef :=
  ops.foldl (fun st d => (add_pin d.name d.left d.right d.type st).2.2) []

/-- Strict sortedness of the pin list by name, in `strcmp` byte order. -/
def sortedPins (l : List PinDef) : Prop :=
  List.Pairwise (fun a b => strcmp a.name b.name = .lt) l

/-- The `while (array_size > 0) { array_size = array_size >> 1; power_count++; }`
loop of `calculate_array_size_using_bounds`, returning the final
`power_count`. `fuel ≥ n` bounds the iteration count (each iteration at
least halves `n`). -/
def bitLoop : Nat → Nat → Nat → Nat
  | 0, _, power_count => power_count
  | fuel + 1, n, power_count =>
    if 0 < n then bitLoop fuel (n / 2) (power_count + 1) else power_count

/-- `calculate_array_size_using_bounds`, with `MINIMUM_ARRAY_SIZE = 4` and
`UPPER_GROWTH_BOUND = 128`. The C function asserts `array_size >= 0`, so the
embedding takes a `Nat`. After the shift loop the code increments
`power_count` once more and returns `1 << power_count`. -/
def calculate_array_size_using_bounds (element_count : Nat) : Nat :=
  if element_count ≤ 4 then 4
  else if element_count > 128 then 128 * (element_count / 128 + 1)
  else 2 ^ (bitLoop element_count element_count 0 + 1)

/-- The capacity law the code actually implements (the amended claim C2):
4 for `n ≤ 4`; `2 ^ (Nat.log2 n + 2)` — four times the largest power of two
that is `≤ n` — for `4 < n ≤ 128`; and `128 * (n / 128 + 1)` — the smallest
multiple of 128 strictly greater than `n` — for `n > 128`. -/
def amended_capacity (n : Nat) : Nat :=
  if n ≤ 4 then 4
  else if n ≤ 128 then 2 ^ (Nat.log2 n + 2)
  else 128 * (n / 128 + 1)

/-- The min/max computation pattern used three times in `add_assignment`
(`x_max = p->left; if (p->right > x_max) { x_min = p->left; x_max = p->right; }
else x_min = p->right;`): returns `(x_min, x_max)`. -/
def pinMinMax (p : PinDef) : Int × Int :=
  if p.right > p.left then (p.left, p.right) else (p.right, p.left)

/-- The bus-expansion loop of `add_assignment`
(`for (wire_index = target_min; wire_index != target_max + 1; wire_index++)`):
one record per target bit walking up from `target_min`. The loop runs exactly
`target_max - target_min + 1` times, which is the structural `count` here.
The loop-local `source_index` starts at `source_min` and increments each
iteration when a source net is present; with no source net the record keeps
the C initialisation value 0. -/
def expand_records (source : Option PinDef) (target : PinDef) (tristated : Bool)
    (tri_control : Option PinDef) (tri_control_index : Int) (constant : Int)
    (invert : Bool) : Nat → Int → Int → List Assign
  | 0, _, _ => []
  | count + 1, wire_index, src_index =>
    ⟨source, if source.isSome then src_index else 0, target, wire_index,
      tristated, tri_control, tri_control_index, constant, invert⟩ ::
      expand_records source target tristated tri_control tri_control_index constant invert
        count (wire_index + 1) (src_index + 1)

/-- The effective source index of `add_assignment`: for a scalar source net
the supplied index is overwritten with the whole-net sentinel `min - 1`
*before* the range assert (lines 378-382 of the C file). -/
def effective_source_index (source : Option PinDef) (source_index : Int) : Int :=
  match source with
  | none => source_index
  | some s => if s.left - s.right = 0 then (pinMinMax s).1 - 1 else source_index

/-- The source range assert of `add_assignment`
(`assert(source_index >= source_min-1 && source_index <= source_max)`),
evaluated on the effective (possibly overwritten) index; no check when the
source net is null. -/
def source_index_ok (source : Option PinDef) (source_index : Int) : Prop :=
  match source with
  | none => True
  | some s =>
    (pinMinMax s).1 - 1 ≤ effective_source_index source source_index ∧
      effective_source_index source source_index ≤ (pinMinMax s).2

instance : (source : Option PinDef) → (source_index : Int) →
    Decidable (source_index_ok source source_index)
  | none, _ => isTrue True.intro
  | some _, _ => inferInstanceAs (Decidable (_ ∧ _))

/-- The tristate block of `add_assignment`: when `tristated` is set the
control net is dereferenced (non-null by the earlier assert) and its index
must lie in the control net's `[min-1, max]` window. -/
def tri_ok (tristated : Bool) (tri_control : Option PinDef) (tri_control_index : Int) : Prop :=
  tristated = true →
    match tri_control with
    | none => False
    | some tc =>
      (pinMinMax tc).1 - 1 ≤ tri_control_index ∧ tri_control_index ≤ (pinMinMax tc).2

instance : (tristated : Bool) → (tri_control : Option PinDef) → (tri_control_index : Int) →
    Decidable (tri_ok tristated tri_control tri_control_index)
  | false, _, _ => isTrue (fun h => absurd h (by simp))
  | true, none, _ => isFalse (fun h => h rfl)
  | true, some tc, i =>
    if hw : (pinMinMax tc).1 - 1 ≤ i ∧ i ≤ (pinMinMax tc).2 then isTrue (fun _ => hw)
    else isFalse (fun h => hw (h rfl))

/-- `add_assignment`. `none` models a failed `assert` (fatal contract
violation); `some records` is the list of records appended to the global
assignment list. Follows the C control flow in order: target non-null
assert, tristate-control non-null assert, the scalar-source overwrite
followed by the source range assert, the target range assert, the
tristate-control range assert, the scalar-target overwrite, then either the
single-record branch or the bus expansion (requiring source width ≥ target
width when a source net is present). -/
def add_assignment (source : Option PinDef) (source_index : Int) (target_opt : Option PinDef)
    (target_index : Int) (tristated : Bool) (tri_control : Option PinDef)
    (tri_control_index : Int) (constant : Int) (invert : Bool) : Option (List Assign) :=
  match target_opt with
  | none => none
  | some target =>
    if tristated ∧ tri_control = none then none
    else if ¬ source_index_ok source source_index then none
    else
      let si := effective_source_index source source_index
      let tmm := pinMinMax target
      if ¬ (tmm.1 - 1 ≤ target_index ∧ target_index ≤ tmm.2) then none
      else if ¬ tri_ok tristated tri_control tri_control_index then none
      else
        let ti := if target.left - target.right = 0 then target.left - 1 else target_index
        if (tmm.2 - tmm.1 > 0 ∧ ti > tmm.1 - 1) ∨ target.indexed = false then
          some [⟨source, si, target, ti, tristated, tri_control, tri_control_index,
                 constant, invert⟩]
        else
          match source with
          | some s =>
            if tmm.2 - tmm.1 ≤ (pinMinMax s).2 - (pinMinMax s).1 then
              some (expand_records source target tristated tri_control tri_control_index
                constant invert (tmm.2 + 1 - tmm.1).toNat tmm.1 (pinMinMax s).1)
            else none
          | none =>
            some (expand_records none target tristated tri_control tri_control_index
              constant invert (tmm.2 + 1 - tmm.1).toNat tmm.1 0)

/-- The exact set of argument configurations on which `add_assignment` hits
a failed `assert` (aborts): target null; tristate flag with null control
net; a *non-scalar* source net whose supplied index is outside its
`[min-1, max]` window (a scalar source's supplied index is never checked —
it is overwritten with the whole-net sentinel first); a supplied target
index outside the target's window; a tristate control index outside its
window; or reaching the bus expansion with a source net narrower than the
target. -/
def assignment_fatal (source : Option PinDef) (source_index : Int)
    (target_opt : Option PinDef) (target_index : Int) (tristated : Bool)
    (tri_control : Option PinDef) (tri_control_index : Int) : Prop :=
  target_opt = none
  ∨ (tristated = true ∧ tri_control = none)
  ∨ (∃ s, source = some s ∧ s.left ≠ s.right ∧
      ¬ ((pinMinMax s).1 - 1 ≤ source_index ∧ source_index ≤ (pinMinMax s).2))
  ∨ (∃ t, target_opt = some t ∧
      ¬ ((pinMinMax t).1 - 1 ≤ target_index ∧ target_index ≤ (pinMinMax t).2))
  ∨ (tristated = true ∧ ∃ tc, tri_control = some tc ∧
      ¬ ((pinMinMax tc).1 - 1 ≤ tri_control_index ∧ tri_control_index ≤ (pinMinMax tc).2))
  ∨ (∃ t s, target_opt = some t ∧ source = some s ∧
      ¬ (((pinMinMax t).2 - (pinMinMax t).1 > 0 ∧
          (if t.left - t.right = 0 then t.left - 1 else target_index) > (pinMinMax t).1 - 1) ∨
         t.indexed = false) ∧
      (pinMinMax s).2 - (pinMinMax s).1 < (pinMinMax t).2 - (pinMinMax t).1)

/-- The left→right bit traversal shared by the per-bit loops
(`for (pin_index = pin->left; pin_index != pin->right + offset; pin_index += offset)`
with `offset = (left > right) ? -1 : 1`): the bit indices of a net from
`left` toward `right`, inclusive. -/
def bitRange (left right : Int) : List Int :=
  (List.range ((left - right).natAbs + 1)).map
    (fun k => left + (if left > right then -1 else 1) * k)

/-- The inner loop of `add_concatenation_assignments`: one `add_assignment`
call per bit of the source net `pin`, walking the source from `left` toward
`right` (`(pin->left > pin->right) ? (wire_index >= pin->right) :
(wire_index <= pin->right)`) and stepping the target cursor once per
emitted bit. Returns the emitted records and the final target cursor;
`none` when an inner `add_assignment` assertion fails. `fuel` bounds the
iterations; `|left - right| + 2` covers the loop and its final test. -/
def concatInner (target : PinDef) (pin : PinDef) (invert : Bool) :
    Nat → Int → Int → Option (List Assign × Int)
  | 0, _, twi => some ([], twi)
  | fuel + 1, wi, twi =>
    if (if pin.left > pin.right then wi ≥ pin.right else wi ≤ pin.right) then
      match add_assignment (some pin) wi (some target) twi false none 0 (-1) invert with
      | none => none
      | some a =>
        match concatInner target pin invert fuel
            (if pin.left > pin.right then wi - 1 else wi + 1)
            (if target.left > target.right then twi - 1 else twi + 1) with
        | none => none
        | some (rest, twi2) => some (a ++ rest, twi2)
    else some ([], twi)

/-- The outer loop of `add_concatenation_assignments` over the
concatenation entries: a `NULL` entry (stub wire) advances the target
cursor one step without emitting anything; a present entry is looked up by
name (the C dereferences the lookup result without a null check, so a
missing net is modelled as a fatal failure) and emitted bit by bit. -/
def concatOuter (pl : List PinDef) (target : PinDef) (invert : Bool) :
    List (Option IdentPass) → Int → Option (List Assign)
  | [], _ => some []
  | none :: rest, twi =>
    concatOuter pl target invert rest
      (if target.left > target.right then twi - 1 else twi + 1)
  | some source :: rest, twi =>
    match locate_net_by_name source.name pl with
    | none => none
    | some pin =>
      match concatInner target pin invert ((pin.left - pin.right).natAbs + 2) pin.left twi with
      | none => none
      | some (a, twi2) =>
        match concatOuter pl target invert rest twi2 with
        | none => none
        | some rest2 => some (a ++ rest2)

/-- `add_concatenation_assignments` (`assert(target_pin != NULL)` is
modelled by the `Option` target). The target cursor starts at
`target_pin->left`. -/
def add_concatenation_assignments (pl : List PinDef) (con_array : List (Option IdentPass))
    (target_pin : Option PinDef) (invert_wire : Bool) : Option (List Assign) :=
  match target_pin with
  | none => none
  | some target => concatOuter pl target invert_wire con_array target.left

/-- `create_node_port_association`: asserts non-null pin and a wire index
within the pin's bounds (the whole-net sentinel is not accepted here). -/
def create_node_port_association (port_name : List Nat) (port_index : Int)
    (pin : Option PinDef) (wire_index : Int) : Option PortAssociation :=
  match pin with
  | none => none
  | some p =>
    if (wire_index ≥ p.left ∧ wire_index ≤ p.right) ∨
       (wire_index ≥ p.right ∧ wire_index ≤ p.left) then
      some ⟨port_name, port_index, p, wire_index⟩
    else none

/-- The bus branch of `associate_identifier_with_port_name`: one
association per bit, port indices counting down from `|left - right|`, wire
indices walking the net's natural `left → right` order (each wire index is
within bounds, so the `create_node_port_association` assertion always
passes; the C copies `port_name` by value into each association). -/
def bus_associations (port_name : List Nat) (pin : PinDef) : List PortAssociation :=
  (List.range ((pin.left - pin.right).natAbs + 1)).map
    (fun k => ⟨port_name, ((pin.left - pin.right).natAbs : Int) - k, pin,
      pin.left + (if pin.left > pin.right then -1 else 1) * k⟩)

/-- `associate_identifier_with_port_name`. `none` = a
`create_node_port_association` assertion aborted; `some none` = the C
returns `NULL` (unknown net name, no association); `some (some l)` = the
produced associations. -/
def associate_identifier_with_port_name (pl : List PinDef) (ident : IdentPass)
    (port_name : List Nat) (port_index : Int) : Option (Option (List PortAssociation)) :=
  match locate_net_by_name ident.name pl with
  | none => some none
  | some pin =>
    if ident.indexed then
      match create_node_port_association port_name port_index (some pin) ident.index with
      | none => none
      | some a => some (some [a])
    else
      if pin.left - pin.right = 0 then
        match create_node_port_association port_name port_index (some pin) pin.left with
        | none => none
        | some a => some (some [a])
      else
        some (some (bus_associations port_name pin))

/-- One entry of `create_array_of_net_to_port_assignments`: `NULL` entries
and names that resolve to no known net contribute a `NULL` stub
placeholder; a multi-bit net accessed as a whole expands into one indexed
identifier per bit in natural left→right order; anything else passes
through unchanged. -/
def flatten_one (pl : List PinDef) (source : Option IdentPass) : List (Option IdentPass) :=
  match source with
  | none => [none]
  | some src =>
    match locate_net_by_name src.name pl with
    | none => [none]
    | some pin =>
      if (pin.left - pin.right).natAbs > 0 ∧ src.indexed = false then
        (bitRange pin.left pin.right).map (fun i => some ⟨pin.name, true, i⟩)
      else [some src]

/-- `create_array_of_net_to_port_assignments`: the loop appends each
entry's contribution in order. -/
def create_array_of_net_to_port_assignments (pl : List PinDef)
    (con_array : List (Option IdentPass)) : List (Option IdentPass) :=
  (con_array.map (flatten_one pl)).flatten

/-- The loop of `create_wire_port_connections` over the flattened
identifier list: the entry at position `index` binds to port bit
`identifier_list->array_size - index - 1`; `NULL` stubs are skipped
(`continue`) but still occupy their position; a `NULL` association result
contributes nothing. -/
def cwpcGo (pl : List PinDef) (port_name : List Nat) (total : Nat) :
    List (Option IdentPass) → Nat → Option (List PortAssociation)
  | [], _ => some []
  | none :: rest, index => cwpcGo pl port_name total rest (index + 1)
  | some ident :: rest, index =>
    match associate_identifier_with_port_name pl ident port_name
        ((total : Int) - index - 1) with
    | none => none
    | some none => cwpcGo pl port_name total rest (index + 1)
    | some (some a) =>
      match cwpcGo pl port_name total rest (index + 1) with
      | none => none
      | some rest2 => some (a ++ rest2)

/-- `create_wire_port_connections`. -/
def create_wire_port_connections (pl : List PinDef) (concat_array : List (Option IdentPass))
    (port_name : List Nat) : Option (List PortAssociation) :=
  let identifier_list := create_array_of_net_to_port_assignments pl concat_array
  cwpcGo pl port_name identifier_list.length identifier_list 0

/-- Concatenation of per-entry association contributions in textual order,
failing when any entry failed (used by the specification-side description
of the port binding below). -/
def collect_contributions : List (Option (List PortAssociation)) → Option (List PortAssociation)
  | [] => some []
  | none :: _ => none
  | some a :: rest =>
    match collect_contributions rest with
    | none => none
    | some bs => some (a ++ bs)

/-- Specification-side description of the port binding, for the amended
claim C5: the flattened entry at position `i` — stub placeholders included —
binds to port bit `total - 1 - i`, `total` being the flattened length with
stub placeholders counted; stubs and unresolvable names contribute no
association; a failed inner assertion makes the whole binding fatal. -/
def spec_bind_to_port (pl : List PinDef) (il : List (Option IdentPass))
    (port_name : List Nat) : Option (List PortAssociation) :=
  collect_contributions (il.enum.map (fun (p : Nat × Option IdentPass) =>
    match p.2 with
    | none => some []
    | some ident =>
      match associate_identifier_with_port_name pl ident port_name
          ((il.length : Int) - p.1 - 1) with
      | none => none
      | some none => some []
      | some (some a) => some a))

/-- The byte content `strcpy` reads from freshly malloc'd memory in
`add_node`'s expansion loop
(`strcpy(new_assoc->port_name, (char*)malloc(strlen(association->port_name)))`
copies from an uninitialized buffer — itself a defect): the bytes are
unspecified; modelled as a fixed arbitrary value, on which no claim
depends. -/
def uninitialized_port_name : List Nat := []

/-- The inner splice loop of `add_node`
(`for (counter = index+1; counter < index + offset; counter++)`): runs
`offset - 1` times (the structural first argument), inserting at position
`counter` a fresh association with `port_index = counter` (the array
position) and the stepping wire index. -/
def add_node_inner (net : PinDef) : Nat → List PortAssociation → Nat → Int → Int →
    List PortAssociation
  | 0, ports, _, _, _ => ports
  | k + 1, ports, counter, wire, change =>
    add_node_inner net k
      (ports.take counter ++
        ⟨uninitialized_port_name, (counter : Int), net, wire⟩ :: ports.drop counter)
      (counter + 1) (wire + change) change

/-- The port-expansion loop of `add_node`: an association targeting a whole
multi-bit bus (`port_index == -1`, `wire_index` below the net's minimum,
`left != right`) is rewritten in place with `port_index = |left-right| - 1`
and `wire_index = net->left`, then `offset - 1` new associations are
spliced in after it, and the outer index jumps past the spliced region
(`index += offset + 1` inside the body plus the loop's own `index++`).
`fuel` bounds the iterations; `ports.length + 1` always suffices because
`array_size - index` strictly shrinks every iteration. -/
def add_node_ports : Nat → List PortAssociation → Nat → List PortAssociation
  | 0, ports, _ => ports
  | fuel + 1, ports, index =>
    if index < ports.length then
      let association := ports.getD index ⟨[], 0, default, 0⟩
      let net := association.associated_net
      let temp := min net.left net.right
      if net.left - net.right ≠ 0 ∧ association.port_index = -1 ∧
          association.wire_index < temp then
        let offset := (net.left - net.right).natAbs
        let ports1 := ports.set index
          { association with port_index := (offset : Int) - 1, wire_index := net.left }
        let change : Int := if net.left > net.right then -1 else 1
        let ports2 := add_node_inner net (offset - 1) ports1 (index + 1)
          (net.left + change) change
        add_node_ports fuel ports2 (index + offset + 2)
      else add_node_ports fuel ports (index + 1)
    else ports

/-- The port-association expansion `add_node` performs on its `ports` array
before attaching it to the new node. -/
def add_node_expand_ports (ports : List PortAssociation) : List PortAssociation :=
  add_node_ports (ports.length + 1) ports 0

/-- The process-wide builder state: the four global list heads and the
most-recently-used-node cache (`module_list`, `assignment_list`,
`node_list`, `pin_list`, `most_recently_used_node`). A `none` list models a
NULL `t_array_ref *`. -/
structure BuilderState where
  module_list : Option (List VqmModule)
  assignment_list : Option (List Assign)
  node_list : Option (List Node)
  pin_list : Option (List PinDef)
  most_recently_used_node : Option Node
deriving DecidableEq, Repr

/-- `add_module`: wraps the current transient pin/assignment/node arrays
into a new module (a NULL array contributes the empty sequence), appends it
to the module list (allocating the list head on first use), frees the three
`t_array_ref` shells and nulls the caller's pointers — the grammar passes
the addresses of the three globals, so those transient lists become NULL.
The `most_recently_used_node` cache is not touched. -/
def add_module (name : List Nat) (st : BuilderState) : BuilderState :=
  { module_list := some (st.module_list.getD [] ++
      [⟨name, st.pin_list.getD [], st.assignment_list.getD [], st.node_list.getD []⟩])
    assignment_list := none
    node_list := none
    pin_list := none
    most_recently_used_node := st.most_recently_used_node }

/-! ## Theorems -/

theorem strcmp_eq_iff (a b : List Nat) : strcmp a b = .eq ↔ a = b := by
  induction a generalizing b with
  | nil => cases b <;> simp [strcmp]
  | cons x xs ih =>
    cases b with
    | nil => simp [strcmp]
    | cons y ys =>
      simp only [strcmp]
      by_cases h1 : x < y
      · simp [h1]
        omega
      · by_cases h2 : y < x
        · simp [h1, h2]
          omega
        · have : x = y := by omega
          simp [h1, h2, this, ih]

theorem strcmp_self (a : List Nat) : strcmp a a = .eq := (strcmp_eq_iff a a).mpr rfl

theorem strcmp_lt_iff_gt (a b : List Nat) : strcmp a b = .lt ↔ strcmp b a = .gt := by
  induction a generalizing b with
  | nil => cases b <;> simp [strcmp]
  | cons x xs ih =>
    cases b with
    | nil => simp [strcmp]
    | cons y ys =>
      simp only [strcmp]
      by_cases h1 : x < y
      · have h2 : ¬ y < x := by omega
        simp [h1, h2]
      · by_cases h2 : y < x
        · simp [h1, h2]
        · simp [h1, h2, ih]

theorem strcmp_lt_trans {a b c : List Nat} (h1 : strcmp a b = .lt) (h2 : strcmp b c = .lt) :
    strcmp a c = .lt := by
  induction a generalizing b c with
  | nil =>
    cases b with
    | nil => exact absurd h1 (by simp [strcmp])
    | cons y ys =>
      cases c with
      | nil => exact absurd h2 (by simp [strcmp])
      | cons z zs => simp [strcmp]
  | cons x xs ih =>
    cases b with
    | nil => exact absurd h1 (by simp [strcmp])
    | cons y ys =>
      cases c with
      | nil => exact absurd h2 (by simp [strcmp])
      | cons z zs =>
        simp only [strcmp] at h1 h2 ⊢
        by_cases hxy : x < y
        · -- x < y, and y ≤ z in all surviving cases
          by_cases hyz : y < z
          · simp [show x < z by omega]
          · by_cases hzy : z < y
            · simp [hyz, hzy] at h2
            · have : y = z := by omega
              simp [show x < z by omega]
        · by_cases hyx : y < x
          · simp [hxy, hyx] at h1
          · have hxy' : x = y := by omega
            subst hxy'
            simp [hxy, hyx] at h1
            by_cases hyz : x < z
            · simp [hyz]
            · by_cases hzy : z < x
              · simp [hyz, hzy] at h2
              · have hxz : x = z := by omega
                subst hxz
                simp [hyz, hzy] at h2 ⊢
                exact ih h1 h2

theorem strcmp_lt_asymm {a b : List Nat} (h : strcmp a b = .lt) : strcmp b a ≠ .lt := by
  intro h2
  have := strcmp_lt_trans h h2
  rw [strcmp_self] at this
  exact absurd this (by simp)

theorem strcmp_lt_ne {a b : List Nat} (h : strcmp a b = .lt) : a ≠ b := by
  intro he
  subst he
  rw [strcmp_self] at h
  exact absurd h (by simp)

/-- Trichotomy for `strcmp`, phrased through `Ordering`. -/
theorem strcmp_cases (a b : List Nat) :
    strcmp a b = .lt ∨ strcmp a b = .eq ∨ strcmp a b = .gt := by
  cases h : strcmp a b <;> simp

theorem fpLoop_out_of_range (name : List Nat) (l : List PinDef) (fuel : Nat)
    (left right lastIndex : Int) (h : ¬ left ≤ right) :
    fpLoop name l fuel left right lastIndex = lastIndex := by
  cases fuel <;> simp [fpLoop, h]

theorem sortedPins_lt {l : List PinDef} (hs : sortedPins l) {i j : Nat}
    (hij : i < j) (hj : j < l.length) :
    strcmp (l.getD i default).name (l.getD j default).name = .lt := by
  have hi : i < l.length := Nat.lt_trans hij hj
  rw [List.getD_eq_getElem l default hi, List.getD_eq_getElem l default hj]
  exact List.pairwise_iff_getElem.mp hs i j hi hj hij

/-- Postcondition of the binary-search loop on a sorted pin list: the
returned index `r` is in range, everything strictly before `r` sorts below
`name`, and everything strictly after `r` sorts above `name`. -/
theorem fpLoop_spec (name : List Nat) (l : List PinDef) (hs : sortedPins l) :
    ∀ (fuel : Nat) (left right lastIndex : Int),
      0 ≤ left → right < (l.length : Int) → left ≤ right →
      (right + 1 - left).toNat ≤ fuel →
      (∀ i : Nat, i < l.length → (i : Int) < left →
        strcmp (l.getD i default).name name = .lt) →
      (∀ i : Nat, i < l.length → right < (i : Int) →
        strcmp name (l.getD i default).name = .lt) →
      0 ≤ fpLoop name l fuel left right lastIndex ∧
      fpLoop name l fuel left right lastIndex < (l.length : Int) ∧
      (∀ i : Nat, i < l.length → (i : Int) < fpLoop name l fuel left right lastIndex →
        strcmp (l.getD i default).name name = .lt) ∧
      (∀ i : Nat, i < l.length → fpLoop name l fuel left right lastIndex < (i : Int) →
        strcmp name (l.getD i default).name = .lt) := by
  intro fuel
  induction fuel with
  | zero => intro left right lastIndex h0 hr hlr hfuel _ _; omega
  | succ f ih =>
    intro left right lastIndex h0 hr hlr hfuel hL hR
    have hmidlo : left ≤ (left + right) / 2 := by omega
    have hmidhi : (left + right) / 2 ≤ right := by omega
    have hidxnn : 0 ≤ (left + right) / 2 := le_trans h0 hmidlo
    have hidxlen : ((left + right) / 2).toNat < l.length := by omega
    have hpin : pinAt l ((left + right) / 2) = l.getD ((left + right) / 2).toNat default := rfl
    cases hc : strcmp name (pinAt l ((left + right) / 2)).name with
    | lt =>
      -- name sorts below the middle element: continue in the left half
      have hstep : fpLoop name l (f + 1) left right lastIndex =
          fpLoop name l f left ((left + right) / 2 - 1) ((left + right) / 2) := by
        simp [fpLoop, hlr, hc]
      rw [hstep]
      have hmidgt : ∀ i : Nat, i < l.length → (left + right) / 2 ≤ (i : Int) →
          strcmp name (l.getD i default).name = .lt := by
        intro i hilen hii
        rcases Nat.lt_or_ge ((left + right) / 2).toNat i with hgt | hge
        · exact strcmp_lt_trans (hpin ▸ hc) (sortedPins_lt hs hgt hilen)
        · have : i = ((left + right) / 2).toNat := by omega
          rw [this]
          exact hpin ▸ hc
      by_cases hrec : left ≤ (left + right) / 2 - 1
      · exact ih left ((left + right) / 2 - 1) ((left + right) / 2) h0 (by omega) hrec
          (by omega) hL (fun i hilen hii => hmidgt i hilen (by omega))
      · rw [fpLoop_out_of_range name l f _ _ _ hrec]
        have hleft : left = (left + right) / 2 := by omega
        refine ⟨hidxnn, by omega, ?_, ?_⟩
        · intro i hilen hii
          exact hL i hilen (by omega)
        · intro i hilen hii
          exact hmidgt i hilen (by omega)
    | eq =>
      have hstep : fpLoop name l (f + 1) left right lastIndex = (left + right) / 2 := by
        simp [fpLoop, hlr, hc]
      rw [hstep]
      have hname : name = (l.getD ((left + right) / 2).toNat default).name :=
        (strcmp_eq_iff _ _).mp (hpin ▸ hc)
      refine ⟨hidxnn, by omega, ?_, ?_⟩
      · intro i hilen hii
        rw [hname]
        exact sortedPins_lt hs (by omega) hidxlen
      · intro i hilen hii
        rw [hname]
        exact sortedPins_lt hs (by omega) hilen
    | gt =>
      -- the middle element sorts below name: continue in the right half
      have hstep : fpLoop name l (f + 1) left right lastIndex =
          fpLoop name l f ((left + right) / 2 + 1) right ((left + right) / 2) := by
        simp [fpLoop, hlr, hc]
      rw [hstep]
      have hflip : strcmp (pinAt l ((left + right) / 2)).name name = .lt :=
        (strcmp_lt_iff_gt _ _).mpr hc
      have hmidlt : ∀ i : Nat, i < l.length → (i : Int) ≤ (left + right) / 2 →
          strcmp (l.getD i default).name name = .lt := by
        intro i hilen hii
        rcases Nat.lt_or_ge i ((left + right) / 2).toNat with hlt2 | hge2
        · exact strcmp_lt_trans (sortedPins_lt hs hlt2 hidxlen) (hpin ▸ hflip)
        · have : i = ((left + right) / 2).toNat := by omega
          rw [this]
          exact hpin ▸ hflip
      by_cases hrec : (left + right) / 2 + 1 ≤ right
      · exact ih ((left + right) / 2 + 1) right ((left + right) / 2) (by omega) hr hrec
          (by omega) (fun i hilen hii => hmidlt i hilen (by omega)) hR
      · rw [fpLoop_out_of_range name l f _ _ _ hrec]
        refine ⟨hidxnn, by omega, ?_, ?_⟩
        · intro i hilen hii
          exact hmidlt i hilen (by omega)
        · intro i hilen hii
          exact hR i hilen (by omega)

/-- On a sorted pin list, `find_position_for_net_in_array` returns the
insertion point for `name`: everything strictly before it sorts below
`name`, and nothing at or after it sorts below `name`. -/
theorem find_position_spec (name : List Nat) (l : List PinDef) (hs : sortedPins l) :
    0 ≤ find_position_for_net_in_array name l ∧
    find_position_for_net_in_array name l ≤ (l.length : Int) ∧
    (∀ i : Nat, i < l.length → (i : Int) < find_position_for_net_in_array name l →
      strcmp (l.getD i default).name name = .lt) ∧
    (∀ i : Nat, i < l.length → find_position_for_net_in_array name l ≤ (i : Int) →
      strcmp (l.getD i default).name name ≠ .lt) := by
  unfold find_position_for_net_in_array
  by_cases h0 : (l.length : Int) - 1 < 0
  · rw [if_pos h0]
    have hlen : l.length = 0 := by omega
    exact ⟨le_refl 0, by omega, fun i hi _ => by omega, fun i hi _ => by omega⟩
  · rw [if_neg h0]
    have hlenpos : 1 ≤ l.length := by omega
    by_cases hlast : strcmp name (pinAt l ((l.length : Int) - 1)).name = .gt
    · rw [if_pos hlast]
      have htn : ((l.length : Int) - 1).toNat = l.length - 1 := by omega
      have hlastlt : strcmp (l.getD (l.length - 1) default).name name = .lt := by
        have := (strcmp_lt_iff_gt (l.getD (l.length - 1) default).name name).mpr
        apply this
        simpa [pinAt, htn] using hlast
      refine ⟨by omega, le_refl _, ?_, ?_⟩
      · intro i hilen _
        rcases Nat.lt_or_ge i (l.length - 1) with hi | hi
        · exact strcmp_lt_trans (sortedPins_lt hs hi (by omega)) hlastlt
        · have : i = l.length - 1 := by omega
          rw [this]
          exact hlastlt
      · intro i hilen hge
        omega
    · rw [if_neg hlast]
      by_cases hfirst : strcmp name (pinAt l 0).name = .lt
      · rw [if_pos hfirst]
        have hfirst' : strcmp name (l.getD 0 default).name = .lt := by
          simpa [pinAt] using hfirst
        refine ⟨le_refl 0, by omega, fun i hi hlt => by omega, ?_⟩
        · intro i hilen _
          rcases Nat.eq_zero_or_pos i with hi | hi
          · rw [hi]
            exact strcmp_lt_asymm hfirst'
          · exact strcmp_lt_asymm
              (strcmp_lt_trans hfirst' (sortedPins_lt hs hi hilen))
      · rw [if_neg hfirst]
        obtain ⟨hr0, hrlen, hp3, hp4⟩ := fpLoop_spec name l hs (l.length + 1) 0
          ((l.length : Int) - 1) 0 (le_refl 0) (by omega) (by omega) (by omega)
          (fun i _ hi => by omega) (fun i hi hgt => by omega)
        rw [if_pos hrlen]
        set r := fpLoop name l (l.length + 1) 0 ((l.length : Int) - 1) 0 with hrdef
        have hpinr : pinAt l r = l.getD r.toNat default := rfl
        by_cases hc : strcmp (pinAt l r).name name = .lt
        · rw [if_pos hc]
          refine ⟨by omega, by omega, ?_, ?_⟩
          · intro i hilen hii
            rcases Nat.lt_or_ge i r.toNat with hi | hi
            · exact hp3 i hilen (by omega)
            · rw [show i = r.toNat by omega]
              exact hpinr ▸ hc
          · intro i hilen hii
            exact strcmp_lt_asymm (hp4 i hilen (by omega))
        · rw [if_neg hc]
          refine ⟨by omega, by omega, fun i hilen hii => hp3 i hilen hii, ?_⟩
          · intro i hilen hii
            rcases Nat.lt_or_ge r.toNat i with hi | hi
            · exact strcmp_lt_asymm (hp4 i hilen (by omega))
            · rw [show i = r.toNat by omega]
              exact fun hcontra => hc (hpinr ▸ hcontra)

/-- If `p` is stored in the sorted list under `name`, the binary search
lands exactly on it. -/
theorem find_position_exact {name : List Nat} {l : List PinDef} (hs : sortedPins l)
    {p : PinDef} (hp : p ∈ l) (hn : p.name = name) :
    0 ≤ find_position_for_net_in_array name l ∧
    find_position_for_net_in_array name l < (l.length : Int) ∧
    l.getD (find_position_for_net_in_array name l).toNat default = p := by
  obtain ⟨h0, hlen, hp3, hp4⟩ := find_position_spec name l hs
  obtain ⟨j, hj, hjp⟩ := List.getElem_of_mem hp
  have hgj : l.getD j default = p := by rw [List.getD_eq_getElem l default hj, hjp]
  set fp := find_position_for_net_in_array name l with hfpdef
  have hj1 : ¬ ((j : Int) < fp) := by
    intro hlt
    have h := hp3 j hj hlt
    rw [hgj, hn, strcmp_self] at h
    exact absurd h (by simp)
  have hj2 : ¬ (fp < (j : Int)) := by
    intro hlt
    have hfplen : fp.toNat < l.length := by omega
    have h4 := hp4 fp.toNat (by omega) (by omega)
    rcases strcmp_cases (l.getD fp.toNat default).name name with hlt2 | heq2 | hgt2
    · exact h4 hlt2
    · have hss := sortedPins_lt hs (i := fp.toNat) (j := j) (by omega) hj
      rw [(strcmp_eq_iff _ _).mp heq2, hgj, hn, strcmp_self] at hss
      exact absurd hss (by simp)
    · have hnl : strcmp name (l.getD fp.toNat default).name = .lt :=
        (strcmp_lt_iff_gt _ _).mpr hgt2
      have hsj := sortedPins_lt hs (i := fp.toNat) (j := j) (by omega) hj
      have hss := strcmp_lt_trans hnl hsj
      rw [hgj, hn, strcmp_self] at hss
      exact absurd hss (by simp)
  refine ⟨h0, by omega, ?_⟩
  rw [show fp.toNat = j by omega, hgj]

/-- Lookup on a sorted pin list returns exactly the stored pin with the
queried name (not-found otherwise). -/
theorem locate_spec_aux {name : List Nat} {l : List PinDef} (hs : sortedPins l)
    (p : PinDef) :
    locate_net_by_name name l = some p ↔ p ∈ l ∧ p.name = name := by
  obtain ⟨h0, hlen, hp3, hp4⟩ := find_position_spec name l hs
  simp only [locate_net_by_name]
  constructor
  · intro h
    split_ifs at h with h1 h2
    · obtain rfl := (Option.some.inj h)
      have hfplen : (find_position_for_net_in_array name l).toNat < l.length := by omega
      constructor
      · have hconv : pinAt l (find_position_for_net_in_array name l) =
            l[(find_position_for_net_in_array name l).toNat] :=
          List.getD_eq_getElem l default hfplen
        rw [hconv]
        exact List.getElem_mem hfplen
      · exact (strcmp_eq_iff _ _).mp h2
  · rintro ⟨hp, hn⟩
    obtain ⟨hfp0, hfplt, hfpeq⟩ := find_position_exact hs hp hn
    have hpin : pinAt l (find_position_for_net_in_array name l) = p := hfpeq
    rw [if_pos hfplt, hpin, if_pos (by rw [hn]; exact strcmp_self name)]

/-- Inserting `pin` (named `name`) at a slot `k` that separates the
names strictly below `name` from those strictly above keeps the pin list
strictly sorted. -/
theorem sortedPins_insert {l : List PinDef} (hs : sortedPins l) {name : List Nat}
    (pin : PinDef) (hpname : pin.name = name) (k : Nat) (hk : k ≤ l.length)
    (hbelow : ∀ i : Nat, i < k → strcmp (l.getD i default).name name = .lt)
    (habove : ∀ i : Nat, k ≤ i → i < l.length → strcmp name (l.getD i default).name = .lt) :
    sortedPins (l.insertIdx k pin) := by
  have hs' := List.pairwise_iff_getElem.mp hs
  have hlen : (l.insertIdx k pin).length = l.length + 1 := List.length_insertIdx k l hk
  rw [sortedPins, List.pairwise_iff_getElem]
  intro i j hi hj hij
  rcases lt_trichotomy j k with hjk | hjk | hjk
  · have hjl : j < l.length := by omega
    have hil : i < l.length := by omega
    rw [List.getElem_insertIdx_of_lt l pin k j hjk hjl,
        List.getElem_insertIdx_of_lt l pin k i (by omega) hil]
    exact hs' i j hil hjl hij
  · subst hjk
    have hil : i < l.length := by omega
    rw [List.getElem_insertIdx_of_lt l pin j i hij hil, List.getElem_insertIdx_self l pin j hk,
        hpname]
    have := hbelow i hij
    rwa [List.getD_eq_getElem l default hil] at this
  · obtain ⟨m, rfl⟩ : ∃ m, j = k + m + 1 := ⟨j - k - 1, by omega⟩
    have hml : k + m < l.length := by omega
    rw [List.getElem_insertIdx_add_succ l pin k m hml]
    rcases lt_trichotomy i k with hik | hik | hik
    · have hil : i < l.length := by omega
      rw [List.getElem_insertIdx_of_lt l pin k i hik hil]
      exact hs' i (k + m) hil hml (by omega)
    · subst hik
      rw [List.getElem_insertIdx_self l pin i hk, hpname]
      have := habove (i + m) (by omega) (by omega)
      rwa [List.getD_eq_getElem l default (by omega : i + m < l.length)] at this
    · obtain ⟨m2, rfl⟩ : ∃ m2, i = k + m2 + 1 := ⟨i - k - 1, by omega⟩
      have hm2l : k + m2 < l.length := by omega
      rw [List.getElem_insertIdx_add_succ l pin k m2 hm2l]
      exact hs' (k + m2) (k + m) hm2l hml (by omega)

/-- `add_pin` keeps the pin list sorted (both when it inserts and when it
discards a duplicate). -/
theorem add_pin_sorted {l : List PinDef} (hs : sortedPins l)
    (name : List Nat) (left right : Int) (type : PinType) :
    sortedPins (add_pin name left right type l).2.2 := by
  obtain ⟨h0, hlen, hp3, hp4⟩ := find_position_spec name l hs
  simp only [add_pin]
  set fp := find_position_for_net_in_array name l with hfpdef
  by_cases h1 : 0 ≤ fp ∧ fp < (l.length : Int)
  · rw [if_pos h1]
    by_cases h2 : strcmp (pinAt l fp).name name = .eq
    · rw [if_pos h2]
      exact hs
    · rw [if_neg h2]
      have hfpn : strcmp name (l.getD fp.toNat default).name = .lt := by
        rcases strcmp_cases (l.getD fp.toNat default).name name with ha | hb | hc2
        · exact absurd ha (hp4 fp.toNat (by omega) (by omega))
        · exact absurd hb h2
        · exact (strcmp_lt_iff_gt _ _).mpr hc2
      apply sortedPins_insert hs _ rfl fp.toNat (by omega)
      · intro i hik
        exact hp3 i (by omega) (by omega)
      · intro i hik hil
        rcases Nat.eq_or_lt_of_le hik with he | hlt2
        · rw [← he]
          exact hfpn
        · exact strcmp_lt_trans hfpn (sortedPins_lt hs hlt2 hil)
  · rw [if_neg h1]
    have hfplen : fp = (l.length : Int) := by omega
    apply sortedPins_insert hs _ rfl fp.toNat (by omega)
    · intro i hik
      exact hp3 i (by omega) (by omega)
    · intro i hik hil
      omega

theorem runPins_go_sorted (ops : List PinDecl) :
    ∀ l : List PinDef, sortedPins l →
      sortedPins (ops.foldl (fun st d => (add_pin d.name d.left d.right d.type st).2.2) l) := by
  induction ops with
  | nil => intro l hl; exact hl
  | cons d rest ih =>
    intro l hl
    exact ih _ (add_pin_sorted hl d.name d.left d.right d.type)

theorem runPins_sorted (ops : List PinDecl) : sortedPins (runPins ops) :=
  runPins_go_sorted ops [] List.Pairwise.nil

/-- Declaring a name that is already stored returns the stored pin, flags
the duplicate warning, and leaves the pin list untouched. -/
theorem add_pin_duplicate {l : List PinDef} (hs : sortedPins l) {p : PinDef}
    (hp : p ∈ l) {name : List Nat} (hn : p.name = name) (left right : Int) (type : PinType) :
    add_pin name left right type l = (p, true, l) := by
  obtain ⟨hfp0, hfplt, hfpeq⟩ := find_position_exact hs hp hn
  simp only [add_pin]
  rw [if_pos ⟨hfp0, hfplt⟩]
  have hpin : pinAt l (find_position_for_net_in_array name l) = p := hfpeq
  rw [hpin, if_pos (by rw [hn]; exact strcmp_self name)]

/-- C6: for every sequence of net declarations (`add_pin` calls), the
Ordered Net Index stays sorted by name in lexicographic byte order after
every operation (every prefix of declarations is an instance of the
universally quantified `ops`), and `locate_net_by_name` returns exactly the
stored net whose name matches the query (`none` when no such net exists,
and the match is unique because the list is strictly sorted). -/
theorem net_index_sorted_and_lookup (ops : List PinDecl) (name : List Nat) :
    sortedPins (runPins ops) ∧
    ∀ p : PinDef,
      locate_net_by_name name (runPins ops) = some p ↔ p ∈ runPins ops ∧ p.name = name :=
  ⟨runPins_sorted ops, fun p => locate_spec_aux (runPins_sorted ops) p⟩

/-- C7: declaring a net under a name that is already in the index leaves
the index unchanged (same list, hence same size), discards the new net,
raises the non-fatal duplicate warning flag, and returns the
first-declared net itself (the stored record, not the new one), so later
references bind to the original. -/
theorem duplicate_net_first_wins (ops : List PinDecl) (name : List Nat)
    (left right : Int) (type : PinType) {p : PinDef}
    (hp : p ∈ runPins ops) (hn : p.name = name) :
    add_pin name left right type (runPins ops) = (p, true, runPins ops) :=
  add_pin_duplicate (runPins_sorted ops) hp hn left right type

theorem duplicate_net_first_wins_witness :
    (⟨[97], 3, 0, PinType.pinWire, true⟩ : PinDef) ∈ runPins [⟨[97], 3, 0, PinType.pinWire⟩] ∧
    add_pin [97] 5 2 PinType.pinInput (runPins [⟨[97], 3, 0, PinType.pinWire⟩]) =
      (⟨[97], 3, 0, PinType.pinWire, true⟩, true, runPins [⟨[97], 3, 0, PinType.pinWire⟩]) :=
  ⟨by decide, duplicate_net_first_wins _ _ _ _ _ (by decide) rfl⟩

theorem bitLoop_eq_log2 : ∀ (fuel n pc : Nat), 0 < n → n ≤ fuel →
    bitLoop fuel n pc = pc + Nat.log2 n + 1 := by
  intro fuel
  induction fuel with
  | zero => intro n pc h1 h2; omega
  | succ f ih =>
    intro n pc h1 h2
    simp only [bitLoop, if_pos h1]
    by_cases h3 : 2 ≤ n
    · have hrec := ih (n / 2) (pc + 1) (by omega) (by omega)
      have hlog : Nat.log2 n = Nat.log2 (n / 2) + 1 := by
        conv_lhs => rw [Nat.log2]
        rw [if_pos (show n ≥ 2 from h3)]
      rw [hrec, hlog]
      omega
    · have hn1 : n = 1 := by omega
      subst hn1
      have h12 : (1 : Nat) / 2 = 0 := rfl
      have hz : bitLoop f 0 (pc + 1) = pc + 1 := by cases f <;> simp [bitLoop]
      rw [h12, hz, Nat.log2]
      norm_num

/-- C2 counterexample: at `n = 5` the code computes capacity 16, while 8 is
already a power of two that is at least `max 4 5` (so 16 is not the smallest
such power of two); at `n = 256` the code computes 384, while 256 itself is a
multiple of 128 that is at least 256 (so 384 is not the smallest such
multiple). -/
theorem capacity_claim_counterexample :
    calculate_array_size_using_bounds 5 = 16 ∧ 2 ^ 3 = 8 ∧ max 4 5 ≤ 8 ∧ 8 < 16 ∧
    calculate_array_size_using_bounds 256 = 384 ∧ 128 * 2 = 256 ∧ 256 ≤ 256 ∧ 256 < 384 := by
  decide

/-- C2 (amended): for every element count `n ≥ 0`, the capacity computed by
the growable array equals 4 when `n ≤ 4`; equals `2 ^ (Nat.log2 n + 2)` —
four times the largest power of two `≤ n`, not the smallest power of two
`≥ n` — when `4 < n ≤ 128`; and equals `128 * (n / 128 + 1)` — the smallest
multiple of 128 strictly greater than `n`, not the smallest one `≥ n` —
when `n > 128`. -/
theorem capacity_growth_policy (n : Nat) :
    calculate_array_size_using_bounds n = amended_capacity n := by
  unfold calculate_array_size_using_bounds amended_capacity
  by_cases h1 : n ≤ 4
  · simp [h1]
  · by_cases h2 : n > 128
    · rw [if_neg h1, if_neg h1, if_pos h2, if_neg (by omega : ¬ n ≤ 128)]
    · rw [if_neg h1, if_neg h1, if_neg h2, if_pos (by omega : n ≤ 128),
          bitLoop_eq_log2 n n 0 (by omega) (le_refl n)]
      ring_nf

theorem pinMinMax_le (p : PinDef) : (pinMinMax p).1 ≤ (pinMinMax p).2 := by
  unfold pinMinMax
  split_ifs with h <;> simp <;> omega

/-- C8 counterexample: a scalar source net `s` with bounds `(0,0)` is passed
with source index 5, far outside its window `[-1, 0]`; the claim says this
is a fatal contract violation, but `add_assignment` completes normally and
emits a record (the supplied index was overwritten with the whole-net
sentinel `-1` before the range assert). -/
theorem assignment_fatal_counterexample :
    add_assignment (some ⟨[115], 0, 0, PinType.pinWire, false⟩) 5
        (some ⟨[116], 0, 0, PinType.pinWire, false⟩) 0 false none 0 (-1) false =
      some [⟨some ⟨[115], 0, 0, PinType.pinWire, false⟩, -1,
             ⟨[116], 0, 0, PinType.pinWire, false⟩, -1, false, none, 0, -1, false⟩] ∧
    ¬ ((5 : Int) ≤ (pinMinMax ⟨[115], 0, 0, PinType.pinWire, false⟩).2) := by
  constructor
  · rfl
  · decide

theorem pinMinMax_fst (p : PinDef) : (pinMinMax p).1 = min p.left p.right := by
  unfold pinMinMax
  split_ifs with h <;> simp <;> omega

theorem pinMinMax_snd (p : PinDef) : (pinMinMax p).2 = max p.left p.right := by
  unfold pinMinMax
  split_ifs with h <;> simp <;> omega

/-- C10: in every `add_assignment` call whose source net is scalar
(`left = right`), the result is independent of the supplied source index
(the overwrite happens before any range check, so the supplied value is
never validated), and every emitted record carries the whole-net sentinel
`left - 1` as its source index; symmetrically, with a scalar target every
record emitted through the single-assignment path carries the sentinel
`left - 1` as its target index whatever (valid) target index was supplied.
`hcanon` is the `indexed` invariant `add_pin` establishes for every net. -/
theorem scalar_sentinel_overwrite (source : Option PinDef) (source_index : Int)
    (target : PinDef) (target_index : Int) (tristated : Bool)
    (tri_control : Option PinDef) (tri_control_index : Int) (constant : Int) (invert : Bool)
    (hcanon : target.indexed = (target.left != target.right)) :
    (∀ s, source = some s → s.left = s.right →
      (∀ si2 : Int,
        add_assignment source source_index (some target) target_index tristated
          tri_control tri_control_index constant invert =
        add_assignment source si2 (some target) target_index tristated
          tri_control tri_control_index constant invert) ∧
      (∀ L, add_assignment source source_index (some target) target_index tristated
          tri_control tri_control_index constant invert = some L →
        ∀ a ∈ L, a.source_index = s.left - 1)) ∧
    (target.left = target.right →
      ∀ L, add_assignment source source_index (some target) target_index tristated
          tri_control tri_control_index constant invert = some L →
        ∀ a ∈ L, a.target_index = target.left - 1) := by
  constructor
  · rintro s rfl hsc
    have hz : s.left - s.right = 0 := by omega
    constructor
    · intro si2
      simp [add_assignment, source_index_ok, effective_source_index, hz]
    · intro L hL
      by_cases htsc : target.left - target.right = 0
      · have hidx : target.indexed = false := by
          rw [hcanon, show target.left = target.right from by omega]
          simp
        simp [add_assignment, source_index_ok, effective_source_index, hz, hidx, htsc] at hL
        (try split_ifs at hL) <;>
          (first
            | (obtain rfl := Option.some.inj hL)
            | (obtain rfl := Option.some.inj hL.2)
            | (obtain rfl := Option.some.inj hL.2.2)
            | (obtain rfl := Option.some.inj hL.2.2.2)
            | (obtain rfl := Option.some.inj hL.2.2.2.2)
            | (obtain rfl := hL)
            | (obtain rfl := hL.2)
            | (obtain rfl := hL.2.2)
            | (obtain rfl := hL.2.2.2)
            | (obtain rfl := hL.2.2.2.2)
            | skip) <;>
          (intro a haL) <;>
          simp_all [pinMinMax_fst, pinMinMax_snd, List.mem_singleton] <;>
          omega
      · have hne : target.left ≠ target.right := by omega
        have hidx : target.indexed = true := by
          rw [hcanon]
          simp [bne_iff_ne, hne]
        simp [add_assignment, source_index_ok, effective_source_index, hz, hidx, htsc] at hL
        (try split_ifs at hL) <;>
          (first
            | (obtain rfl := Option.some.inj hL)
            | (obtain rfl := Option.some.inj hL.2)
            | (obtain rfl := Option.some.inj hL.2.2)
            | (obtain rfl := Option.some.inj hL.2.2.2)
            | (obtain rfl := Option.some.inj hL.2.2.2.2)
            | (obtain rfl := hL)
            | (obtain rfl := hL.2)
            | (obtain rfl := hL.2.2)
            | (obtain rfl := hL.2.2.2)
            | (obtain rfl := hL.2.2.2.2)
            | skip) <;>
          (intro a haL) <;>
          simp_all [pinMinMax_fst, pinMinMax_snd, List.mem_singleton] <;>
          omega
  · intro hts L hL
    have htsc : target.left - target.right = 0 := by omega
    have hidx : target.indexed = false := by
      rw [hcanon, hts]
      simp
    rcases source with _ | s2 <;>
      simp [add_assignment, source_index_ok, effective_source_index, hidx, htsc] at hL <;>
      (try split_ifs at hL) <;>
      (first
        | (obtain rfl := Option.some.inj hL)
        | (obtain rfl := Option.some.inj hL.2)
        | (obtain rfl := Option.some.inj hL.2.2)
        | (obtain rfl := Option.some.inj hL.2.2.2)
        | (obtain rfl := Option.some.inj hL.2.2.2.2)
        | (obtain rfl := hL)
        | (obtain rfl := hL.2)
        | (obtain rfl := hL.2.2)
        | (obtain rfl := hL.2.2.2)
        | (obtain rfl := hL.2.2.2.2)
        | skip) <;>
      (intro a haL) <;>
      simp_all [pinMinMax_fst, pinMinMax_snd, List.mem_singleton] <;>
      omega

theorem scalar_sentinel_overwrite_witness :
    ((⟨[97], 3, 0, PinType.pinWire, true⟩ : PinDef).indexed = ((3 : Int) != 0)) ∧
    add_assignment (some ⟨[99], 0, 0, PinType.pinWire, false⟩) 5
        (some ⟨[97], 3, 0, PinType.pinWire, true⟩) 2 false none 0 (-1) false =
      add_assignment (some ⟨[99], 0, 0, PinType.pinWire, false⟩) 0
        (some ⟨[97], 3, 0, PinType.pinWire, true⟩) 2 false none 0 (-1) false :=
  ⟨by decide,
    ((scalar_sentinel_overwrite (some ⟨[99], 0, 0, PinType.pinWire, false⟩) 5
        ⟨[97], 3, 0, PinType.pinWire, true⟩ 2 false none 0 (-1) false (by decide)).1
        ⟨[99], 0, 0, PinType.pinWire, false⟩ rfl rfl).1 0⟩

theorem expand_records_eq_map (source : Option PinDef) (target : PinDef) (tristated : Bool)
    (tri_control : Option PinDef) (tri_control_index : Int) (constant : Int) (invert : Bool) :
    ∀ (count : Nat) (wire si : Int),
      expand_records source target tristated tri_control tri_control_index constant invert
        count wire si =
      (List.range count).map (fun k => ⟨source, if source.isSome then si + k else 0, target,
        wire + k, tristated, tri_control, tri_control_index, constant, invert⟩) := by
  intro count
  induction count with
  | zero => intro wire si; rfl
  | succ n ih =>
    intro wire si
    rw [expand_records, ih, List.range_succ_eq_map, List.map_cons, List.map_map]
    refine congrArg₂ List.cons ?_ ?_
    · simp
    · refine List.map_congr_left ?_
      intro k _
      simp [Function.comp]
      constructor
      · split_ifs <;> omega
      · omega

/-- C4: under in-window indices (and the `indexed` invariant that `add_pin`
establishes), `add_assignment` emits exactly one record whenever the target
resolves to a single concrete bit — the target is scalar (whatever index was
supplied) or an explicit non-whole target index was supplied; otherwise (a
multi-bit target driven as a whole) it is fatal when a source net is present
that is strictly narrower than the target, and else it emits one record per
target bit, target bits ascending from `target_min`, paired (when a source
net is present) with source bits ascending from `source_min`, with the
tristate, constant and invert attributes replicated on every record. -/
theorem add_assignment_split_policy (source : Option PinDef) (source_index : Int)
    (target : PinDef) (target_index : Int) (tristated : Bool)
    (tri_control : Option PinDef) (tri_control_index : Int) (constant : Int) (invert : Bool)
    (hcanon : target.indexed = (target.left != target.right))
    (hti : (pinMinMax target).1 - 1 ≤ target_index ∧ target_index ≤ (pinMinMax target).2)
    (hsrc : source_index_ok source source_index)
    (htri : tristated = true → tri_control ≠ none)
    (htri2 : tri_ok tristated tri_control tri_control_index) :
    ((target.left = target.right ∨ (pinMinMax target).1 - 1 < target_index) →
      ∃ a, add_assignment source source_index (some target) target_index tristated
        tri_control tri_control_index constant invert = some [a]) ∧
    (target.left ≠ target.right → target_index = (pinMinMax target).1 - 1 →
      (∀ s, source = some s →
        ((pinMinMax s).2 - (pinMinMax s).1 < (pinMinMax target).2 - (pinMinMax target).1 →
          add_assignment source source_index (some target) target_index tristated
            tri_control tri_control_index constant invert = none) ∧
        ((pinMinMax target).2 - (pinMinMax target).1 ≤ (pinMinMax s).2 - (pinMinMax s).1 →
          add_assignment source source_index (some target) target_index tristated
            tri_control tri_control_index constant invert =
          some ((List.range ((pinMinMax target).2 + 1 - (pinMinMax target).1).toNat).map
            (fun k => ⟨source, (pinMinMax s).1 + k, target, (pinMinMax target).1 + k,
                       tristated, tri_control, tri_control_index, constant, invert⟩)))) ∧
      (source = none →
        add_assignment source source_index (some target) target_index tristated
          tri_control tri_control_index constant invert =
        some ((List.range ((pinMinMax target).2 + 1 - (pinMinMax target).1).toNat).map
          (fun k => ⟨none, 0, target, (pinMinMax target).1 + k,
                     tristated, tri_control, tri_control_index, constant, invert⟩)))) := by
  have hmt := pinMinMax_le target
  have hnontri : ¬ (tristated = true ∧ tri_control = none) := fun h => htri h.1 h.2
  constructor
  · rintro (hsc | hexp)
    · have hidx : target.indexed = false := by
        rw [hcanon, hsc]
        simp
      refine ⟨⟨source, effective_source_index source source_index, target, target.left - 1,
        tristated, tri_control, tri_control_index, constant, invert⟩, ?_⟩
      simp [add_assignment, hsrc, hti, hnontri, htri2, hidx,
        show target.left - target.right = 0 by omega]
    · by_cases hsc : target.left = target.right
      · have hidx : target.indexed = false := by
          rw [hcanon, hsc]
          simp
        refine ⟨⟨source, effective_source_index source source_index, target, target.left - 1,
          tristated, tri_control, tri_control_index, constant, invert⟩, ?_⟩
        simp [add_assignment, hsrc, hti, hnontri, htri2, hidx,
          show target.left - target.right = 0 by omega]
      · have hmulti : (pinMinMax target).1 < (pinMinMax target).2 := by
          rw [pinMinMax_fst, pinMinMax_snd] at *
          omega
        refine ⟨⟨source, effective_source_index source source_index, target, target_index,
          tristated, tri_control, tri_control_index, constant, invert⟩, ?_⟩
        simp [add_assignment, hsrc, hti, hnontri, htri2,
          show ¬ target.left - target.right = 0 by omega]
        intro hcontra
        omega
  · intro hne hwhole
    have hidx : target.indexed = true := by
      rw [hcanon]
      simp [bne_iff_ne, hne]
    have hsingle : ¬ (((pinMinMax target).2 - (pinMinMax target).1 > 0 ∧
        target_index > (pinMinMax target).1 - 1) ∨ target.indexed = false) := by
      simp [hidx]
      omega
    refine ⟨?_, ?_⟩
    · rintro s rfl
      constructor
      · intro hwidth
        simp [add_assignment, hsrc, hti, hnontri, htri2,
          show ¬ target.left - target.right = 0 by omega, hidx]
        rw [if_neg (by omega), if_neg (by omega)]
      · intro hwidth
        rw [show add_assignment (some s) source_index (some target) target_index tristated
            tri_control tri_control_index constant invert =
            some (expand_records (some s) target tristated tri_control tri_control_index
              constant invert ((pinMinMax target).2 + 1 - (pinMinMax target).1).toNat
              (pinMinMax target).1 (pinMinMax s).1) from by
          simp [add_assignment, hsrc, hti, hnontri, htri2,
            show ¬ target.left - target.right = 0 by omega, hidx, hwidth]
          omega]
        rw [expand_records_eq_map]
        simp
    · rintro rfl
      rw [show add_assignment none source_index (some target) target_index tristated
          tri_control tri_control_index constant invert =
          some (expand_records none target tristated tri_control tri_control_index
            constant invert ((pinMinMax target).2 + 1 - (pinMinMax target).1).toNat
            (pinMinMax target).1 0) from by
        simp [add_assignment, hsrc, hti, hnontri, htri2,
          show ¬ target.left - target.right = 0 by omega, hidx]
        omega]
      rw [expand_records_eq_map]
      simp

theorem add_assignment_split_policy_witness :
    source_index_ok (some ⟨[115], 4, 0, PinType.pinWire, true⟩) (-1) ∧
    add_assignment (some ⟨[115], 4, 0, PinType.pinWire, true⟩) (-1)
        (some ⟨[97], 3, 0, PinType.pinWire, true⟩) (-1) false none 0 (-1) false =
      some ((List.range ((pinMinMax ⟨[97], 3, 0, PinType.pinWire, true⟩).2 + 1 -
          (pinMinMax ⟨[97], 3, 0, PinType.pinWire, true⟩).1).toNat).map
        (fun k => ⟨some ⟨[115], 4, 0, PinType.pinWire, true⟩,
          (pinMinMax ⟨[115], 4, 0, PinType.pinWire, true⟩).1 + k,
          ⟨[97], 3, 0, PinType.pinWire, true⟩,
          (pinMinMax ⟨[97], 3, 0, PinType.pinWire, true⟩).1 + k, false, none, 0, -1, false⟩)) :=
  ⟨by decide,
   (((add_assignment_split_policy (some ⟨[115], 4, 0, PinType.pinWire, true⟩) (-1)
       ⟨[97], 3, 0, PinType.pinWire, true⟩ (-1) false none 0 (-1) false
       (by decide) (by decide) (by decide) (by decide) (by decide)).2
       (by decide) (by decide)).1 ⟨[115], 4, 0, PinType.pinWire, true⟩ rfl).2 (by decide)⟩

/-- C3: after declaring nets a(3,0), b(2,0), c(0,0), assigning the
concatenation {b, c} to a produces exactly the four single-bit assignments
a[3]=b[2], a[2]=b[1], a[1]=b[0], a[0]=c (the last records the whole-net
sentinel -1 as its source index, c being referenced whole), in that
order. -/
theorem concatenation_assignment_example :
    add_concatenation_assignments
        (runPins [⟨[97], 3, 0, PinType.pinWire⟩, ⟨[98], 2, 0, PinType.pinWire⟩,
                  ⟨[99], 0, 0, PinType.pinWire⟩])
        [some ⟨[98], false, 0⟩, some ⟨[99], false, 0⟩]
        (locate_net_by_name [97]
          (runPins [⟨[97], 3, 0, PinType.pinWire⟩, ⟨[98], 2, 0, PinType.pinWire⟩,
                    ⟨[99], 0, 0, PinType.pinWire⟩]))
        false =
      some [⟨some ⟨[98], 2, 0, PinType.pinWire, true⟩, 2,
              ⟨[97], 3, 0, PinType.pinWire, true⟩, 3, false, none, 0, -1, false⟩,
            ⟨some ⟨[98], 2, 0, PinType.pinWire, true⟩, 1,
              ⟨[97], 3, 0, PinType.pinWire, true⟩, 2, false, none, 0, -1, false⟩,
            ⟨some ⟨[98], 2, 0, PinType.pinWire, true⟩, 0,
              ⟨[97], 3, 0, PinType.pinWire, true⟩, 1, false, none, 0, -1, false⟩,
            ⟨some ⟨[99], 0, 0, PinType.pinWire, false⟩, -1,
              ⟨[97], 3, 0, PinType.pinWire, true⟩, 0, false, none, 0, -1, false⟩] := by
  decide

/-- C1: (code bug) connecting the 2-bit bus w (left=1, right=0) whole to
port "in": `add_node`'s expansion rewrites the single association to
(port_index 0, wire_index 1) and splices in nothing — exactly ONE
association instead of the two (in,1,w,1),(in,0,w,0) the spec requires.
The loop uses `offset = |left-right|` (width - 1), so its inner splice runs
`offset - 1 = width - 2` times, bit 0 of the bus is dropped, and the first
port index is `offset - 1 = width - 2` instead of `width - 1`. -/
theorem add_node_whole_bus_expansion_bug :
    add_node_expand_ports [⟨[105, 110], -1, ⟨[119], 1, 0, PinType.pinWire, true⟩, -1⟩] =
      [⟨[105, 110], 0, ⟨[119], 1, 0, PinType.pinWire, true⟩, 1⟩] ∧
    ([⟨[105, 110], 0, ⟨[119], 1, 0, PinType.pinWire, true⟩, 1⟩] : List PortAssociation) ≠
      [⟨[105, 110], 1, ⟨[119], 1, 0, PinType.pinWire, true⟩, 1⟩,
       ⟨[105, 110], 0, ⟨[119], 1, 0, PinType.pinWire, true⟩, 0⟩] := by
  decide

/-- C9 counterexample: after `add_module`, the most-recently-used-node
cache still holds the node it held before — the transient state is not
entirely cleared, contradicting the claim that every piece of transient
builder state is empty afterwards. -/
theorem finalize_cache_counterexample :
    (add_module [109] ⟨none, none, none, none,
        some ⟨[110], [110], [], []⟩⟩).most_recently_used_node =
      some ⟨[110], [110], [], []⟩ ∧
    some (⟨[110], [110], [], []⟩ : Node) ≠ none := by
  decide

/-- C9 (amended): `add_module` appends exactly one new module wrapping the
current transient pin/assignment/node sequences to the end of the
process-wide module list, and resets the pin list (Ordered Net Index),
assignment sequence and node sequence to empty (NULL) — but it leaves the
most-recently-used-node cache unchanged (the cache is cleared only by
`vqm_data_cleanup`, not at module boundaries). -/
theorem finalize_module_effects (name : List Nat) (st : BuilderState) :
    (add_module name st).module_list =
      some (st.module_list.getD [] ++
        [⟨name, st.pin_list.getD [], st.assignment_list.getD [], st.node_list.getD []⟩]) ∧
    (add_module name st).pin_list = none ∧
    (add_module name st).assignment_list = none ∧
    (add_module name st).node_list = none ∧
    (add_module name st).most_recently_used_node = st.most_recently_used_node :=
  ⟨rfl, rfl, rfl, rfl, rfl⟩

theorem cwpcGo_eq_spec (pl : List PinDef) (port_name : List Nat) (total : Nat) :
    ∀ (l : List (Option IdentPass)) (idx : Nat),
      cwpcGo pl port_name total l idx =
      collect_contributions ((l.enumFrom idx).map (fun (p : Nat × Option IdentPass) =>
        match p.2 with
        | none => some []
        | some ident =>
          match associate_identifier_with_port_name pl ident port_name
              ((total : Int) - p.1 - 1) with
          | none => none
          | some none => some []
          | some (some a) => some a)) := by
  intro l
  induction l with
  | nil => intro idx; rfl
  | cons x rest ih =>
    intro idx
    cases x with
    | none =>
      rw [cwpcGo, ih]
      show collect_contributions _ =
        collect_contributions (some [] :: (rest.enumFrom (idx + 1)).map _)
      simp only [collect_contributions]
      cases hrec : collect_contributions ((rest.enumFrom (idx + 1)).map
          (fun (p : Nat × Option IdentPass) =>
        match p.2 with
        | none => some []
        | some ident =>
          match associate_identifier_with_port_name pl ident port_name
              ((total : Int) - p.1 - 1) with
          | none => none
          | some none => some []
          | some (some a) => some a)) with
      | none => simp
      | some bs => simp
    | some ident =>
      rw [cwpcGo]
      simp only [List.enumFrom, List.map]
      cases hassoc : associate_identifier_with_port_name pl ident port_name
          ((total : Int) - idx - 1) with
      | none => rfl
      | some r =>
        cases r with
        | none =>
          show cwpcGo pl port_name total rest (idx + 1) =
            collect_contributions (some [] :: (rest.enumFrom (idx + 1)).map _)
          rw [ih]
          simp only [collect_contributions]
          cases hrec : collect_contributions ((rest.enumFrom (idx + 1)).map
              (fun (p : Nat × Option IdentPass) =>
            match p.2 with
            | none => some []
            | some ident2 =>
              match associate_identifier_with_port_name pl ident2 port_name
                  ((total : Int) - p.1 - 1) with
              | none => none
              | some none => some []
              | some (some a) => some a)) with
          | none => simp
          | some bs => simp
        | some a =>
          show (match cwpcGo pl port_name total rest (idx + 1) with
                | none => none
                | some rest2 => some (a ++ rest2)) =
            collect_contributions (some a :: (rest.enumFrom (idx + 1)).map _)
          rw [ih]
          simp only [collect_contributions]

/-- C5 counterexample: binding the concatenation [net a, stub] to port p:
the flattened sequence keeps the stub as a placeholder, so entry `a`
(position 0 of 2) binds to port index 2 - 1 - 0 = 1; with dropped stubs
excluded, as the claim states, the surviving sequence would have length 1
and `a` would bind to port index 1 - 1 - 0 = 0. -/
theorem port_binding_stub_counterexample :
    create_wire_port_connections (runPins [⟨[97], 0, 0, PinType.pinWire⟩])
        [some ⟨[97], false, 0⟩, none] [112] =
      some [⟨[112], 1, ⟨[97], 0, 0, PinType.pinWire, false⟩, 0⟩] ∧
    (1 : Int) ≠ 1 - 1 - 0 := by
  decide

/-- C5 (amended): binding a flattened concatenation to a named port assigns
the entry at flattened position `i` — stub placeholders *included* — the
port bit index `total - 1 - i`, where `total` is the flattened length with
stub placeholders counted, so the first textual element binds to the
most-significant port bit; stubs (explicit placeholders or unresolvable
names) produce no association but do occupy positions and count toward
`total`. In particular a flattened stub-free 3-element concatenation binds
port indices 2, 1, 0 to textual elements 0, 1, 2. -/
theorem port_binding_msb_first (pl : List PinDef) (concat_array : List (Option IdentPass))
    (port_name : List Nat) :
    create_wire_port_connections pl concat_array port_name =
      spec_bind_to_port pl (create_array_of_net_to_port_assignments pl concat_array)
        port_name ∧
    create_wire_port_connections
        (runPins [⟨[97], 0, 0, PinType.pinWire⟩, ⟨[98], 0, 0, PinType.pinWire⟩,
                  ⟨[99], 0, 0, PinType.pinWire⟩])
        [some ⟨[97], false, 0⟩, some ⟨[98], false, 0⟩, some ⟨[99], false, 0⟩] [112] =
      some [⟨[112], 2, ⟨[97], 0, 0, PinType.pinWire, false⟩, 0⟩,
            ⟨[112], 1, ⟨[98], 0, 0, PinType.pinWire, false⟩, 0⟩,
            ⟨[112], 0, ⟨[99], 0, 0, PinType.pinWire, false⟩, 0⟩] := by
  constructor
  · unfold create_wire_port_connections spec_bind_to_port
    rw [cwpcGo_eq_spec]
    rfl
  · decide
set_option maxHeartbeats 2000000 in
/-- C8 (amended): `add_assignment` raises a fatal contract violation
(assertion failure) exactly when: the target is null; the tristate flag is
set with a null control net; a *non-scalar* source net's supplied index lies
outside its `[min-1, max]` window (a scalar source's supplied index is
never validated — it is overwritten with the whole-net sentinel before the
range check); the supplied target index lies outside the target's window;
the tristate control index lies outside the control net's window; or the
call reaches the whole-bus expansion with a source net strictly narrower
than the target. Under the complementary preconditions every assertion
passes and the operation completes normally. -/
theorem assignment_fatal_iff (source : Option PinDef) (source_index : Int)
    (target_opt : Option PinDef) (target_index : Int) (tristated : Bool)
    (tri_control : Option PinDef) (tri_control_index : Int) (constant : Int) (invert : Bool) :
    add_assignment source source_index target_opt target_index tristated tri_control
      tri_control_index constant invert = none ↔
    assignment_fatal source source_index target_opt target_index tristated tri_control
      tri_control_index := by
  cases target_opt with
  | none => simp [add_assignment, assignment_fatal]
  | some t =>
    rcases source with _ | s <;> rcases tri_control with _ | tc <;> cases tristated <;>
      simp only [add_assignment, assignment_fatal] <;>
      split_ifs <;>
      simp_all [source_index_ok, effective_source_index, tri_ok] <;>
      (try simp only [pinMinMax_fst, pinMinMax_snd] at *) <;>
      (try omega)
    all_goals cases htidx : t.indexed <;> simp_all <;> omega
